import Mathlib

deriving instance DecidableEq for Except

/-!
A verification development for the `jr update-manifest` core of the
joyent-repos repository (`lib/cli/do_update_manifest.js`).

The JavaScript source is shallowly embedded:

* text forms are represented by their list of lines (the source joins
  lines with `"\n"` and appends a trailing `"\n"`, and the parser splits
  on `"\n"` again; at the line level this round trip is the appended
  final empty line);
* JavaScript plain objects used as string-keyed dictionaries become
  association lists with first-match lookup and overwrite-in-place
  update (`jsObjSet` / `jsObjGet?`);
* `String.prototype.trim`, `split(/\s+/)`, `indexOf('=')` and
  `Number(string)` are modelled character-exactly (`jsTrim`,
  `jsSplitWs`, `jsIndexOfEq`, `jsToNumber`); `jsToNumber` follows the
  ECMAScript `StringNumericLiteral` grammar, returning the exact
  rational value of the literal (IEEE-754 rounding of the resulting
  double is abstracted away; the claims under study only inspect
  NaN-ness and small integer values, where the double is exact);
* the callback pipeline of `vasync.pipeline` becomes an explicit
  sequence of stage functions over a session state, with user
  interaction (prompt answers, editor responses) supplied as explicit
  script values, and `saveManifest` recorded as an appended snapshot in
  a `persists` list;
* `tabula.sortArrayOfObjects(arr, ['name'])` and `Array.prototype.sort`
  on strings become a stable insertion sort with a lexicographic
  code-point comparator.
-/

namespace JoyentRepos

/-- The set of characters matched by the JavaScript regexp class `\s`
(ECMAScript WhiteSpace and LineTerminator characters), which also is the
set trimmed by `String.prototype.trim`. -/
def jsIsWs (c : Char) : Bool :=
  c = ' ' || c = '\t' || c = '\n' || c = '\r' ||
  c.toNat = 0x0b || c.toNat = 0x0c || c.toNat = 0xa0 || c.toNat = 0x1680 ||
  (0x2000 ≤ c.toNat && c.toNat ≤ 0x200a) || c.toNat = 0x2028 || c.toNat = 0x2029 ||
  c.toNat = 0x202f || c.toNat = 0x205f || c.toNat = 0x3000 || c.toNat = 0xfeff

/-- `String.prototype.trim` on the character list. -/
def jsTrimList (cs : List Char) : List Char :=
  ((cs.dropWhile jsIsWs).reverse.dropWhile jsIsWs).reverse

/-- `String.prototype.trim`. -/
def jsTrim (s : String) : String :=
  String.mk (jsTrimList s.toList)

/-- First phase of `split(/\s+/g)`: split at every single whitespace
character, producing an empty piece between adjacent separators. -/
def jsSplitEach : List Char → List Char → List String
  | [], acc => [String.mk acc.reverse]
  | c :: cs, acc =>
    if jsIsWs c then String.mk acc.reverse :: jsSplitEach cs []
    else jsSplitEach cs (c :: acc)

/-- Second phase of `split(/\s+/g)`: collapse a run of separators into a
single split point by dropping the empty pieces produced between
adjacent separator characters.  The first and the last piece are kept
even when empty (JavaScript keeps boundary empty pieces: a leading or a
trailing separator run yields an empty first or last element). -/
def jsCollapseMid : List String → List String
  | [] => []
  | [x] => [x]
  | x :: xs => if x.isEmpty then jsCollapseMid xs else x :: jsCollapseMid xs

/-- `String.prototype.split(/\s+/g)`. -/
def jsSplitWs (s : String) : List String :=
  match jsSplitEach s.toList [] with
  | [] => []
  | x :: xs => x :: jsCollapseMid xs

/-- Scan for the first `'='`, carrying the current index. -/
def indexOfEqAux : List Char → Nat → Option Nat
  | [], _ => none
  | c :: cs, i => if c = '=' then some i else indexOfEqAux cs (i + 1)

/-- `String.prototype.indexOf('=')` on a token, as an optional index
(`none` models the JavaScript result `-1`). -/
def jsIndexOfEq (s : String) : Option Nat :=
  indexOfEqAux s.toList 0

/-- The value space of a JavaScript number produced by `Number(string)`:
`NaN`, the two infinities, or a finite value.  The finite value is kept
as the exact rational denoted by the numeric literal. -/
inductive JsNum where
  | nan
  | posInf
  | negInf
  | val (q : Rat)
deriving DecidableEq, Repr

/-- Value of a list of decimal digit characters. -/
def decDigitsVal (cs : List Char) : Nat :=
  cs.foldl (fun n c => n * 10 + (c.toNat - '0'.toNat)) 0

/-- Is `c` a hexadecimal digit? -/
def isHexDigit (c : Char) : Bool :=
  c.isDigit || ('a' ≤ c && c ≤ 'f') || ('A' ≤ c && c ≤ 'F')

/-- Value of a hexadecimal digit character. -/
def hexDigitVal (c : Char) : Nat :=
  if c.isDigit then c.toNat - '0'.toNat
  else if 'a' ≤ c && c ≤ 'f' then c.toNat - 'a'.toNat + 10
  else c.toNat - 'A'.toNat + 10

/-- Value of a list of digit characters in base `b`. -/
def baseDigitsVal (b : Nat) (cs : List Char) : Nat :=
  cs.foldl (fun n c => n * b + hexDigitVal c) 0

/-- Parse an ECMAScript `ExponentPart` (`e`/`E`, optional sign, decimal
digits), requiring the whole input to be consumed. -/
def parseExpPart : List Char → Option Int
  | e :: rest =>
    if e = 'e' || e = 'E' then
      match rest with
      | '+' :: ds => if ds ≠ [] && ds.all Char.isDigit then some (decDigitsVal ds) else none
      | '-' :: ds => if ds ≠ [] && ds.all Char.isDigit then some (-(decDigitsVal ds : Int)) else none
      | ds => if ds ≠ [] && ds.all Char.isDigit then some (decDigitsVal ds) else none
    else none
  | [] => none

/-- The rational value `(ip . fp) * 10 ^ e` of a decimal literal with
integer digits `ip`, fraction digits `fp` and exponent `e`. -/
def mkDecVal (ip fp : List Char) (e : Int) : Rat :=
  ((decDigitsVal ip : Rat) + (decDigitsVal fp : Rat) / (10 : Rat) ^ fp.length) * (10 : Rat) ^ e

/-- Parse an ECMAScript unsigned decimal literal
(`DecimalDigits . DecimalDigits? ExponentPart?`,
`. DecimalDigits ExponentPart?` or `DecimalDigits ExponentPart?`),
requiring the whole input to be consumed.  `Infinity` is handled by the
caller. -/
def parseDecLit (cs : List Char) : Option Rat :=
  let ip := cs.takeWhile Char.isDigit
  let rest := cs.dropWhile Char.isDigit
  match rest with
  | '.' :: rest2 =>
    let fp := rest2.takeWhile Char.isDigit
    let rest3 := rest2.dropWhile Char.isDigit
    if ip.isEmpty && fp.isEmpty then none
    else match rest3 with
      | [] => some (mkDecVal ip fp 0)
      | _ => (parseExpPart rest3).map (mkDecVal ip fp)
  | [] => if ip.isEmpty then none else some (decDigitsVal ip)
  | _ => if ip.isEmpty then none else (parseExpPart rest).map (mkDecVal ip [])

/-- Parse an ECMAScript `StrUnsignedDecimalLiteral` (a decimal literal
or the word `Infinity`), whole input consumed. -/
def parseUnsignedLit (cs : List Char) : Option JsNum :=
  if cs = "Infinity".toList then some .posInf
  else (parseDecLit cs).map .val

/-- Parse an ECMAScript `StrNumericLiteral`: a binary/octal/hexadecimal
integer literal (unsigned), or an optionally signed decimal literal or
`Infinity`; whole input consumed. -/
def parseStrNumericLit (cs : List Char) : Option JsNum :=
  match cs with
  | '0' :: x :: ds =>
    if x = 'x' || x = 'X' then
      if ds ≠ [] && ds.all isHexDigit then some (.val (baseDigitsVal 16 ds)) else none
    else if x = 'o' || x = 'O' then
      if ds ≠ [] && ds.all (fun c => '0' ≤ c && c ≤ '7') then some (.val (baseDigitsVal 8 ds)) else none
    else if x = 'b' || x = 'B' then
      if ds ≠ [] && ds.all (fun c => c = '0' || c = '1') then some (.val (baseDigitsVal 2 ds)) else none
    else parseUnsignedLit cs
  | '+' :: rest => parseUnsignedLit rest
  | '-' :: rest =>
    match parseUnsignedLit rest with
    | some .posInf => some .negInf
    | some (.val q) => some (.val (-q))
    | _ => none
  | _ => parseUnsignedLit cs

/-- `Number(string)` (ECMAScript `ToNumber` on a string): surrounding
whitespace is stripped; the empty remainder denotes `0`; otherwise the
remainder must be a complete `StrNumericLiteral`, anything else being
`NaN`. -/
def jsToNumber (s : String) : JsNum :=
  let cs := jsTrimList s.toList
  if cs.isEmpty then .val 0
  else match parseStrNumericLit cs with
    | some n => n
    | none => .nan

/-- A label value as stored in a repo's `labels` object: the JavaScript
code stores `true`/`false` booleans, numbers, or strings. -/
inductive LabelVal where
  | bool (b : Bool)
  | num (n : JsNum)
  | str (s : String)
deriving DecidableEq, Repr

/-- Overwrite-in-place update of a JavaScript object viewed as an
association list: `obj[k] = v` keeps the first-assignment position of an
existing key and appends a new key at the end. -/
def jsObjSet (m : List (String × α)) (k : String) (v : α) : List (String × α) :=
  match m with
  | [] => [(k, v)]
  | (k', v') :: rest =>
    if k' = k then (k', v) :: rest else (k', v') :: jsObjSet rest k v

/-- Property lookup on a JavaScript object viewed as an association
list (own properties only; the prototype chain of plain objects is
abstracted away). -/
def jsObjGet? (m : List (String × α)) (k : String) : Option α :=
  match m with
  | [] => none
  | (k', v) :: rest => if k' = k then some v else jsObjGet? rest k

/-- `JOYENT_REPO_BASE_URL` from the source. -/
def baseUrl : String := "https://github.com/TritonDataCenter/"

/-- An entry of `manifest.repositories`: a name and an optional `labels`
object (the JavaScript object may simply lack the `labels` property). -/
structure Repo where
  name : String
  labels : Option (List (String × LabelVal))
deriving DecidableEq, Repr

/-- A repository as returned by the GitHub candidate source: only the
`name` and `archived` fields are consumed by this code. -/
structure CandidateRepo where
  name : String
  archived : Bool
deriving DecidableEq, Repr

/-- An entry of `manifest.blessedLabels`. -/
structure BlessedLabel where
  name : String
  type : String
  descr : String
deriving DecidableEq, Repr

/-- `manifest.repoCandidateSearch`. -/
structure RepoCandidateSearch where
  type : String
  includeArchived : Bool
  descr : String
deriving DecidableEq, Repr

/-- The manifest document (the fields consumed by `update-manifest`).
`defaults` models `manifest.defaults && manifest.defaults.labels`:
`some dl` when both are present, `none` otherwise. -/
structure Manifest where
  descr : String
  repositories : List Repo
  excludedRepositories : List String
  repoCandidateSearch : RepoCandidateSearch
  blessedLabels : List BlessedLabel
  defaults : Option (List (String × LabelVal))
deriving DecidableEq, Repr

/-- One `KEY=VALUE` (or bare `KEY`) token of an uncommented repo line,
exactly as `parseReposForm` coerces it: `token.indexOf('=')` splits at
the first `=`; a missing `=` stores `true`; the values `true` and
`false` store booleans; a value accepted by `Number()` stores the
number (note `Number('') === 0`); anything else stores the string. -/
def applyLabelToken (labels : List (String × LabelVal)) (token : String) : List (String × LabelVal) :=
  match jsIndexOfEq token with
  | none => jsObjSet labels token (.bool true)
  | some idx =>
    let key := String.mk (token.toList.take idx)
    let v := String.mk (token.toList.drop (idx + 1))
    if v = "true" then jsObjSet labels key (.bool true)
    else if v = "false" then jsObjSet labels key (.bool false)
    else match jsToNumber v with
      | .nan => jsObjSet labels key (.str v)
      | n => jsObjSet labels key (.num n)

/-- The `labels` object accumulated from the label tokens of one repo
line. -/
def tokensToLabels (tokens : List String) : List (String × LabelVal) :=
  tokens.foldl applyLabelToken []

/-- The error thrown by `parseReposForm` on a line that is not blank,
not a comment and not a `JOYENT_REPO_BASE_URL` line: it carries the
1-based line number (`VError` info) and the offending (trimmed) line
text interpolated into the message. -/
structure FormatError where
  line : Nat
  text : String
deriving DecidableEq, Repr

/-- `parseReposForm`, line by line; `i` is the 0-based index of the
current line in the whole form text. -/
def parseReposFormAux (parseLabels : Bool) : Nat → List String → Except FormatError (List Repo)
  | _, [] => .ok []
  | i, l :: rest =>
    let line := jsTrim l
    if line = "" then parseReposFormAux parseLabels (i + 1) rest
    else if line.toList.head? = some '#' then parseReposFormAux parseLabels (i + 1) rest
    else if baseUrl.toList.isPrefixOf line.toList then
      let tokens := jsSplitWs (String.mk (line.toList.drop baseUrl.toList.length))
      let name := tokens.headD ""
      let rest' := tokens.tail
      let repo : Repo :=
        if parseLabels && !rest'.isEmpty then ⟨name, some (tokensToLabels rest')⟩
        else ⟨name, none⟩
      match parseReposFormAux parseLabels (i + 1) rest with
      | .ok repos => .ok (repo :: repos)
      | .error e => .error e
    else .error ⟨i + 1, line⟩

/-- `parseReposForm(text, parseLabels)`, with the form text given as its
list of lines (the source splits the text on `"\n"`). -/
def parseReposForm (lines : List String) (parseLabels : Bool) : Except FormatError (List Repo) :=
  parseReposFormAux parseLabels 0 lines

/-- `createReposForm(frontMatter, repos)`: the front-matter lines
verbatim, then one commented line `# <base-url><name>` per repo.  The
source passes repo objects and reads only their `name`; the form text is
represented by its lines, the final `""` standing for the trailing
newline appended by `form.join('\n') + '\n'`. -/
def createReposForm (frontMatter : List String) (repoNames : List String) : List String :=
  frontMatter ++ repoNames.map (fun n => "# " ++ baseUrl ++ n) ++ [""]

/-- The created form with every repo line uncommented (the leading
`"# "` marker removed from each repo line), the operation the curating
human performs to select every repo. -/
def createReposFormUncommented (frontMatter : List String) (repoNames : List String) : List String :=
  frontMatter ++ repoNames.map (fun n => baseUrl ++ n) ++ [""]

/-- The condition of `parseReposForm`'s error branch: the (trimmed)
line is non-blank, not comment-marked, and does not start with the base
URL. -/
def badFormLine (l : String) : Bool :=
  !decide (jsTrim l = "") && !decide ((jsTrim l).toList.head? = some '#') &&
    !baseUrl.toList.isPrefixOf (jsTrim l).toList

/-! ## Reconciliation (`fetchCandidateRepos` and `categorizeRepos`) -/

/-- The reconciliation output: `ctx.goneRepos`, `ctx.goneExcRepos` (the
source wraps each gone excluded name as an object `{name: name}`) and
`ctx.newRepos`. -/
structure Categories where
  goneRepos : List Repo
  goneExcRepos : List Repo
  newRepos : List CandidateRepo
deriving DecidableEq, Repr

/-- `categorizeRepos`: builds the three name-keyed dictionaries
(`repoFromName`, `excRepoFromName`, `candidateRepoFromName`) and
classifies by lookup, exactly as the source loops do. -/
def categorizeRepos (manifest : Manifest) (candidateRepos : List CandidateRepo) : Categories :=
  let repoFromName :=
    manifest.repositories.foldl (fun m repo => jsObjSet m repo.name repo) []
  let excRepoFromName :=
    manifest.excludedRepositories.foldl (fun m name => jsObjSet m name true) []
  let candidateRepoFromName :=
    candidateRepos.foldl (fun m repo => jsObjSet m repo.name repo) []
  { goneRepos :=
      manifest.repositories.filter
        (fun repo => (jsObjGet? candidateRepoFromName repo.name).isNone)
    goneExcRepos :=
      (manifest.excludedRepositories.filter
        (fun name => (jsObjGet? candidateRepoFromName name).isNone)).map
        (fun name => ⟨name, none⟩)
    newRepos :=
      candidateRepos.filter
        (fun repo =>
          (jsObjGet? repoFromName repo.name).isNone &&
          (jsObjGet? excRepoFromName repo.name).isNone) }

/-- The error wrapping used for a failed GitHub call (`GitHubApiError`,
carrying the upstream status as `err.code`). -/
inductive PipelineErr where
  | gitHubApiError (status : Nat)
deriving DecidableEq, Repr

/-- `fetchCandidateRepos` (with the debug cache path `null`, its shipped
value): the paginated GitHub listing either fails — the error is wrapped
and aborts the pipeline — or yields the candidate list, from which
archived repos are dropped unless `repoCandidateSearch.includeArchived`
is set.  The listing result (including an empty list) is passed on
unexamined. -/
def fetchCandidateRepos (manifest : Manifest)
    (listing : Except Nat (List CandidateRepo)) :
    Except PipelineErr (List CandidateRepo) :=
  match listing with
  | .error status => .error (.gitHubApiError status)
  | .ok repos =>
    .ok (if manifest.repoCandidateSearch.includeArchived then repos
         else repos.filter (fun repo => !repo.archived))

/-- The pipeline prefix `fetchCandidateRepos` → `categorizeRepos`: what
has happened by the time reconciliation has run (or failed to run). -/
def updateManifestCategorize (manifest : Manifest)
    (listing : Except Nat (List CandidateRepo)) :
    Except PipelineErr Categories :=
  match fetchCandidateRepos manifest listing with
  | .error e => .error e
  | .ok candidateRepos => .ok (categorizeRepos manifest candidateRepos)

/-! ## The editor retry loop (`editReposInEditor`) -/

/-- One response of the external editor collaborator: the edited text
(as lines) or cancellation (`common.editInEditor` calling back with an
error). -/
inductive EditorResp where
  | cancel
  | text (lines : List String)
deriving DecidableEq, Repr

/-- One scripted interaction step of the retry loop: the editor's
response and, consumed only if the edited text fails to parse, the
answer to the `Press <Enter> to re-edit, <Ctrl+C> to abort.` prompt
(`true` = re-edit, `false` = abort). -/
structure EditStep where
  resp : EditorResp
  retry : Bool
deriving DecidableEq, Repr

/-- What `editReposInEditor` hands to its callback: a parsed repo list
(`cb(null, repos)`), the editor's cancellation error passed through
(`cb(editErr)`), the distinguished abort value (`cb(true)`), or — a
channel the callback protocol would permit but which the loop must never
use — a form-text parse error. -/
inductive EditOutcome where
  | parsed (repos : List Repo)
  | editorCancelled
  | userAborted
  | parseErrorEscaped (e : FormatError)
deriving DecidableEq, Repr

/-- The retry loop of `editReposInEditor`.  `text` and `editLine` are
the loop's mutable state (the text and cursor line passed to the next
editor invocation).  The result pairs the trace of editor invocations
(text and starting line of each) with the callback outcome; the outcome
is `none` when the script ends with the loop still awaiting the editor
(the loop itself has no exit bound). -/
def editLoop (parseLabels : Bool) (text : List String) (editLine : Nat) :
    List EditStep → List (List String × Nat) × Option EditOutcome
  | [] => ([], none)
  | step :: rest =>
    match step.resp with
    | .cancel => ([(text, editLine)], some .editorCancelled)
    | .text t =>
      match parseReposForm t parseLabels with
      | .ok repos => ([(text, editLine)], some (.parsed repos))
      | .error e =>
        if step.retry then
          let r := editLoop parseLabels t e.line rest
          ((text, editLine) :: r.1, r.2)
        else ([(text, editLine)], some .userAborted)

/-- `editReposInEditor(opts, cb)`: the initial text is the created form
and the initial cursor line is the first selectable line (just past the
front matter, 1-based). -/
def editReposInEditor (frontMatter : List String) (repoNames : List String)
    (parseLabels : Bool) (script : List EditStep) :
    List (List String × Nat) × Option EditOutcome :=
  editLoop parseLabels (createReposForm frontMatter repoNames)
    (frontMatter.length + 1) script

/-! ## The curation session (the `vasync.pipeline` stages) -/

/-- Stable insertion sort with a boolean comparator, modelling
`tabula.sortArrayOfObjects(arr, ['name'])` and `Array.prototype.sort`
on strings. -/
def sortInsert (le : α → α → Bool) (x : α) : List α → List α
  | [] => [x]
  | y :: ys => if le x y then x :: y :: ys else y :: sortInsert le x ys

/-- Stable insertion sort (see `sortInsert`). -/
def sortBy (le : α → α → Bool) : List α → List α
  | [] => []
  | x :: xs => sortInsert le x (sortBy le xs)

/-- Lexicographic code-point comparison of strings, the order JavaScript
string comparison induces (UTF-16 versus code-point order differences
above the basic plane are abstracted away). -/
def charListLe : List Char → List Char → Bool
  | [], _ => true
  | _ :: _, [] => false
  | a :: as, b :: bs => if a = b then charListLe as bs else decide (a < b)

/-- String comparator used for sorting (see `charListLe`). -/
def jsStrLe (a b : String) : Bool :=
  charListLe a.toList b.toList

/-- The mutable part of the pipeline's shared `ctx`, plus the trace of
`saveManifest` calls (`persists` records each manifest written to
disk, in order). -/
structure SessState where
  manifest : Manifest
  persists : List Manifest
  addNewRepos : Bool
  addNewExcludedRepos : Bool
  remainingRepos : List CandidateRepo
deriving DecidableEq, Repr

/-- The `removeGoneRepos` stage.  With nothing gone it only logs.
Otherwise `promptYesNo` is answered by `answer`; any answer other than
`'y'` skips the removal, and `'y'` filters both lists by the gone name
sets and persists. -/
def removeGoneRepos (cats : Categories) (answer : String) (st : SessState) : SessState :=
  let repos := cats.goneRepos ++ cats.goneExcRepos
  if repos.length = 0 then st
  else if answer ≠ "y" then st
  else
    let goneRepoNames := cats.goneRepos.map Repo.name
    let goneExcRepoNames := cats.goneExcRepos.map Repo.name
    let m :=
      { st.manifest with
        repositories :=
          st.manifest.repositories.filter (fun r => !goneRepoNames.contains r.name)
        excludedRepositories :=
          st.manifest.excludedRepositories.filter (fun n => !goneExcRepoNames.contains n) }
    { st with manifest := m, persists := st.persists ++ [m] }

/-- The `confirmAddNewRepos` stage: with no new repos the inclusion work
is switched off; otherwise the enter-to-continue prompt decides
(`enter = false` models the prompt erroring out on Ctrl+C, which skips),
and on proceeding the remaining pool is seeded with all new repos. -/
def confirmAddNewRepos (cats : Categories) (enter : Bool) (st : SessState) : SessState :=
  if cats.newRepos.length = 0 then { st with addNewRepos := false }
  else if !enter then { st with addNewRepos := false }
  else { st with addNewRepos := true, remainingRepos := cats.newRepos }

/-- String interpolation `'# - ' + k + '=' + v` of a default label
value (only displayed in front-matter comment lines, which the parser
ignores; JavaScript's number-to-string formatting is abstracted to a
plain integer or fraction rendering). -/
def labelValToString : LabelVal → String
  | .bool b => if b then "true" else "false"
  | .str s => s
  | .num .nan => "NaN"
  | .num .posInf => "Infinity"
  | .num .negInf => "-Infinity"
  | .num (.val q) =>
    if q.den = 1 then toString q.num
    else toString q.num ++ "/" ++ toString q.den

/-- The front matter of the inclusion form, including the default-label
and blessed-label documentation blocks when the manifest has them. -/
def inclusionFrontMatter (m : Manifest) : List String :=
  let base :=
    ["# Uncomment any repos that should be *included* as relevant",
     "# for this manifest.",
     "#",
     "# Optionally you may include a space-separate set of labels after",
     "# a repo to label it (KEY=VALUE or KEY for a bool), e.g.:",
     "#     https://github.com/TritonDataCenter/sdc-imgapi tritonservice=imgapi vm",
     "#     https://github.com/TritonDataCenter/triton-cmon-agent tritonservice=cmon-agent agent"]
  let base :=
    match m.defaults with
    | none => base
    | some dl =>
      base ++ ["#", "# Default labels:"] ++
        dl.map (fun kv =>
          match kv.2 with
          | .bool true => "# - " ++ kv.1
          | v => "# - " ++ kv.1 ++ "=" ++ labelValToString v)
  let base :=
    if m.blessedLabels.length ≠ 0 then
      base ++ ["#", "# Blessed labels:"] ++
        m.blessedLabels.map (fun lbl =>
          if lbl.type = "boolean" then "# - " ++ lbl.name ++ " - " ++ lbl.descr
          else "# - " ++ lbl.name ++ "=<" ++ lbl.type ++ "> - " ++ lbl.descr)
    else base
  base ++ [""]

/-- The `addNewIncludedRepos` stage.  Skipped unless confirmed; runs the
editor retry loop over the remaining pool; an errored callback
(cancellation or abort) is passed to `next(err)`, aborting the whole
pipeline (`none` in the second component of the result means the script
ended mid-loop; `some true` in it means the pipeline run was aborted).
An accepted empty selection changes nothing; an accepted non-empty
selection is concatenated onto `repositories`, the result re-sorted by
name, the added names removed from the remaining pool, and the manifest
persisted. -/
def addNewIncludedRepos (script : List EditStep) (st : SessState) :
    Option (SessState × Bool) :=
  if !st.addNewRepos then some (st, false)
  else
    match (editReposInEditor (inclusionFrontMatter st.manifest)
        (st.remainingRepos.map CandidateRepo.name) true script).2 with
    | none => none
    | some (.parsed repos) =>
      if repos.length = 0 then some (st, false)
      else
        let merged := sortBy (fun a b => jsStrLe a.name b.name)
          (st.manifest.repositories ++ repos)
        let addedNames := repos.map Repo.name
        let m := { st.manifest with repositories := merged }
        some ({ st with
                manifest := m,
                persists := st.persists ++ [m],
                remainingRepos :=
                  st.remainingRepos.filter (fun r => !addedNames.contains r.name) },
              false)
    | some _ => some (st, true)

/-- The `confirmAddNewExcludedRepos` stage: runs only when the inclusion
work was attempted and candidates remain; the enter-to-continue prompt
decides (Ctrl+C skips). -/
def confirmAddNewExcludedRepos (enter : Bool) (st : SessState) : SessState :=
  if !st.addNewRepos || st.remainingRepos.length = 0 then
    { st with addNewExcludedRepos := false }
  else if !enter then { st with addNewExcludedRepos := false }
  else { st with addNewExcludedRepos := true }

/-- The front matter of the exclusion form. -/
def exclusionFrontMatter : List String :=
  ["# Uncomment any repos that should be *excluded* from this manifest",
   "# (they will be noted in the \x22excludedRepositories\x22 field).",
   ""]

/-- The `addNewExcludedRepos` stage.  Skipped unless confirmed; runs a
second editor retry loop (label parsing disabled: the call site passes
no `parseLabels`); an errored callback aborts the whole pipeline.  An
accepted non-empty selection appends the selected names to
`excludedRepositories`, sorts them, and persists. -/
def addNewExcludedRepos (script : List EditStep) (st : SessState) :
    Option (SessState × Bool) :=
  if !st.addNewExcludedRepos then some (st, false)
  else
    match (editReposInEditor exclusionFrontMatter
        (st.remainingRepos.map CandidateRepo.name) false script).2 with
    | none => none
    | some (.parsed repos) =>
      if repos.length = 0 then some (st, false)
      else
        let m := { st.manifest with
          excludedRepositories :=
            sortBy jsStrLe (st.manifest.excludedRepositories ++ repos.map Repo.name) }
        some ({ st with manifest := m, persists := st.persists ++ [m] }, false)
    | some _ => some (st, true)

/-- The user interactions consumed by one curation session. -/
structure Script where
  removalAnswer : String
  addEnter : Bool
  inclEdit : List EditStep
  exclEnter : Bool
  exclEdit : List EditStep
deriving DecidableEq, Repr

/-- The initial session state over a freshly loaded manifest. -/
def initialState (m : Manifest) : SessState :=
  { manifest := m, persists := [], addNewRepos := false,
    addNewExcludedRepos := false, remainingRepos := [] }

/-- The curation stages of the `vasync.pipeline`, run in order after
reconciliation.  A stage calling `next(err)` stops the pipeline — the
result is `some (st, true)` with `st` the state at that moment; `none`
means a script ended inside an editor loop; otherwise `some (st, false)`
is the completed run. -/
def runSession (cats : Categories) (script : Script) (st : SessState) :
    Option (SessState × Bool) :=
  let st1 := removeGoneRepos cats script.removalAnswer st
  let st2 := confirmAddNewRepos cats script.addEnter st1
  match addNewIncludedRepos script.inclEdit st2 with
  | none => none
  | some (st3, true) => some (st3, true)
  | some (st3, false) =>
    let st4 := confirmAddNewExcludedRepos script.exclEnter st3
    match addNewExcludedRepos script.exclEdit st4 with
    | none => none
    | some (st5, true) => some (st5, true)
    | some (st5, false) => some (st5, false)

/-! ## Concrete instances used by counterexamples and witnesses -/

/-- A one-repo manifest used to exercise reconciliation concretely. -/
def exManifestA : Manifest :=
  { descr := "d", repositories := [⟨"a", none⟩], excludedRepositories := ["x"],
    repoCandidateSearch := ⟨"public", false, "s"⟩, blessedLabels := [], defaults := none }

/-- A manifest with two repositories and one excluded name. -/
def exManifestAB : Manifest :=
  { descr := "d", repositories := [⟨"a", none⟩, ⟨"b", none⟩], excludedRepositories := ["z"],
    repoCandidateSearch := ⟨"public", false, "s"⟩, blessedLabels := [], defaults := none }

/-- Reconciliation output with one new candidate repo `c`. -/
def exCatsC : Categories := ⟨[], [], [⟨"c", false⟩]⟩

/-- A script that aborts inside the inclusion edit/retry loop (the
edited text fails to parse and the retry prompt is declined) and would
afterwards exclude `c` if the exclusion stage ran. -/
def exAbortScript : Script :=
  ⟨"n", true, [⟨.text ["zzz"], false⟩], true,
   [⟨.text [baseUrl ++ "c", ""], true⟩]⟩

/-- The same script except that the inclusion edit accepts an empty
selection, so the run reaches the exclusion stage. -/
def exNoAbortScript : Script :=
  ⟨"n", true, [⟨.text [""], true⟩], true,
   [⟨.text [baseUrl ++ "c", ""], true⟩]⟩

/-- The manifest invariant of the spec: repository names unique,
excluded names unique, and the two name sets disjoint. -/
def manifestInv (m : Manifest) : Prop :=
  (m.repositories.map Repo.name).Nodup ∧ m.excludedRepositories.Nodup ∧
    ∀ n ∈ m.excludedRepositories, n ∉ m.repositories.map Repo.name

/-- A session state about to run the inclusion stage over candidate
`c`, used to exercise the merge concretely. -/
def exStateInclusion : SessState :=
  { manifest := exManifestA, persists := [], addNewRepos := true,
    addNewExcludedRepos := false, remainingRepos := [⟨"c", false⟩] }

/-! ## Dictionary lemmas -/

theorem isNone_eq_not_isSome (o : Option α) : o.isNone = !o.isSome := by
  cases o <;> rfl

theorem jsObjGet?_jsObjSet (m : List (String × α)) (k q : String) (v : α) :
    jsObjGet? (jsObjSet m k v) q = if k = q then some v else jsObjGet? m q := by
  induction m with
  | nil =>
    by_cases h : k = q <;> simp [jsObjSet, jsObjGet?, h]
  | cons hd tl ih =>
    obtain ⟨k', v'⟩ := hd
    by_cases h1 : k' = k <;> by_cases h2 : k = q <;>
      simp_all [jsObjSet, jsObjGet?]

theorem jsObjGet?_foldl_isSome (f : β → String) (g : β → α) (l : List β)
    (init : List (String × α)) (k : String) :
    (jsObjGet? (l.foldl (fun m x => jsObjSet m (f x) (g x)) init) k).isSome
      = (decide (k ∈ l.map f) || (jsObjGet? init k).isSome) := by
  induction l generalizing init with
  | nil => simp
  | cons x xs ih =>
    rw [List.foldl_cons, ih, jsObjGet?_jsObjSet]
    by_cases h : f x = k
    · simp [h]
    · have hk : ¬(k = f x) := fun hh => h hh.symm
      simp [h, hk]

theorem jsObjGet?_foldl_isNone (f : β → String) (g : β → α) (l : List β) (k : String) :
    (jsObjGet? (l.foldl (fun m x => jsObjSet m (f x) (g x)) []) k).isNone
      = decide (k ∉ l.map f) := by
  rw [isNone_eq_not_isSome, jsObjGet?_foldl_isSome]
  by_cases h : k ∈ l.map f <;> simp [h, jsObjGet?]

/-- Lookup in `candidateRepoFromName` (built by the source's third
loop) succeeds exactly for candidate names. -/
theorem candMap_isNone (C : List CandidateRepo) (k : String) :
    (jsObjGet? (C.foldl (fun m repo => jsObjSet m repo.name repo) []) k).isNone
      = decide (k ∉ C.map CandidateRepo.name) :=
  jsObjGet?_foldl_isNone CandidateRepo.name id C k

/-- Lookup in `repoFromName` succeeds exactly for tracked repo names. -/
theorem repoMap_isNone (l : List Repo) (k : String) :
    (jsObjGet? (l.foldl (fun m repo => jsObjSet m repo.name repo) []) k).isNone
      = decide (k ∉ l.map Repo.name) :=
  jsObjGet?_foldl_isNone Repo.name id l k

/-- Lookup in `excRepoFromName` succeeds exactly for excluded names. -/
theorem excMap_isNone (l : List String) (k : String) :
    (jsObjGet? (l.foldl (fun m name => jsObjSet m name true) []) k).isNone
      = decide (k ∉ l) := by
  have h := jsObjGet?_foldl_isNone id (fun _ => true) l k
  simpa using h

theorem categorize_goneRepos_eq (m : Manifest) (C : List CandidateRepo) :
    (categorizeRepos m C).goneRepos
      = m.repositories.filter (fun r => decide (r.name ∉ C.map CandidateRepo.name)) :=
  List.filter_congr (fun r _ => candMap_isNone C r.name)

theorem categorize_goneExcRepos_eq (m : Manifest) (C : List CandidateRepo) :
    (categorizeRepos m C).goneExcRepos
      = (m.excludedRepositories.filter
          (fun n => decide (n ∉ C.map CandidateRepo.name))).map (fun n => ⟨n, none⟩) := by
  have h : m.excludedRepositories.filter
        (fun n => (jsObjGet? (C.foldl (fun mm repo => jsObjSet mm repo.name repo) []) n).isNone)
      = m.excludedRepositories.filter (fun n => decide (n ∉ C.map CandidateRepo.name)) :=
    List.filter_congr (fun n _ => candMap_isNone C n)
  exact congrArg (List.map (fun n => (⟨n, none⟩ : Repo))) h

theorem categorize_newRepos_eq (m : Manifest) (C : List CandidateRepo) :
    (categorizeRepos m C).newRepos
      = C.filter (fun c =>
          decide (c.name ∉ m.repositories.map Repo.name) &&
          decide (c.name ∉ m.excludedRepositories)) := by
  refine List.filter_congr (fun c _ => ?_)
  show ((jsObjGet? (m.repositories.foldl (fun mm repo => jsObjSet mm repo.name repo) [])
            c.name).isNone
      && (jsObjGet? (m.excludedRepositories.foldl (fun mm name => jsObjSet mm name true) [])
            c.name).isNone)
    = (decide (c.name ∉ m.repositories.map Repo.name) &&
       decide (c.name ∉ m.excludedRepositories))
  rw [repoMap_isNone, excMap_isNone]

/-! ## Theorems about reconciliation -/

/-- C1: with the candidate set `C` obtained from the raw listing by
dropping archived entries unless `repoCandidateSearch.includeArchived`
is set, reconciliation computes `goneRepos` as exactly the entries of
`manifest.repositories` whose name is not a candidate name, wraps as
`goneExcRepos` exactly the names of `manifest.excludedRepositories`
that are not candidate names, and computes `newRepos` as exactly the
candidates whose name is neither a repository name nor an excluded
name. -/
theorem categorizeRepos_set_differences (m : Manifest) (raw : List CandidateRepo) :
    updateManifestCategorize m (.ok raw)
      = .ok (categorizeRepos m
          (if m.repoCandidateSearch.includeArchived then raw
           else raw.filter (fun r => !r.archived)))
  ∧ ∀ (C : List CandidateRepo),
      (categorizeRepos m C).goneRepos
        = m.repositories.filter (fun r => decide (r.name ∉ C.map CandidateRepo.name))
    ∧ (categorizeRepos m C).goneExcRepos
        = (m.excludedRepositories.filter
            (fun n => decide (n ∉ C.map CandidateRepo.name))).map (fun n => ⟨n, none⟩)
    ∧ (categorizeRepos m C).newRepos
        = C.filter (fun c =>
            decide (c.name ∉ m.repositories.map Repo.name) &&
            decide (c.name ∉ m.excludedRepositories)) :=
  ⟨rfl, fun C =>
    ⟨categorize_goneRepos_eq m C, categorize_goneExcRepos_eq m C,
     categorize_newRepos_eq m C⟩⟩

/-- C3 counterexample: an empty candidate listing is not rejected; the
pipeline proceeds into reconciliation and classifies every tracked repo
and every excluded name as gone (the claimed behaviour would be an
error result). -/
theorem empty_candidates_processed_not_rejected :
    updateManifestCategorize exManifestA (.ok [])
      = .ok ⟨[⟨"a", none⟩], [⟨"x", none⟩], []⟩ := by
  rfl

/-- C3 (amended): an unreachable candidate source (the GitHub call
failing with some status) terminates the run with a wrapped
`GitHubApiError` before reconciliation; an empty candidate listing,
however, is processed as a legitimate set of zero candidates, making
every tracked repo and excluded name gone and no repo new. -/
theorem unreachable_source_fails_empty_list_processed (m : Manifest) (status : Nat) :
    updateManifestCategorize m (.error status) = .error (.gitHubApiError status)
  ∧ updateManifestCategorize m (.ok [])
      = .ok ⟨m.repositories, m.excludedRepositories.map (fun n => ⟨n, none⟩), []⟩ := by
  constructor
  · rfl
  · simp only [updateManifestCategorize, fetchCandidateRepos]
    have hC : (if m.repoCandidateSearch.includeArchived then ([] : List CandidateRepo)
        else List.filter (fun r => !r.archived) []) = [] := by
      cases m.repoCandidateSearch.includeArchived <;> rfl
    rw [hC]
    congr 1
    have e1 : (categorizeRepos m []).goneRepos = m.repositories := by
      rw [categorize_goneRepos_eq]
      simp
    have e2 : (categorizeRepos m []).goneExcRepos
        = m.excludedRepositories.map (fun n => ⟨n, none⟩) := by
      rw [categorize_goneExcRepos_eq]
      simp
    have e3 : (categorizeRepos m []).newRepos = [] := by
      rw [categorize_newRepos_eq]
      simp
    calc categorizeRepos m []
        = ⟨(categorizeRepos m []).goneRepos, (categorizeRepos m []).goneExcRepos,
           (categorizeRepos m []).newRepos⟩ := rfl
      _ = ⟨m.repositories, m.excludedRepositories.map (fun n => ⟨n, none⟩), []⟩ := by
          rw [e1, e2, e3]

/-! ## Stage lemmas -/

theorem not_contains_eq (l : List String) (a : String) :
    (!l.contains a) = decide (a ∉ l) := by
  by_cases h : a ∈ l <;> simp [h]

theorem removeGoneRepos_skip (cats : Categories) (answer : String) (st : SessState)
    (h : answer ≠ "y") : removeGoneRepos cats answer st = st := by
  simp only [removeGoneRepos]
  by_cases h1 : (cats.goneRepos ++ cats.goneExcRepos).length = 0
  · rw [if_pos h1]
  · rw [if_neg h1, if_pos h]

theorem removeGoneRepos_yes (cats : Categories) (st : SessState)
    (hne : (cats.goneRepos ++ cats.goneExcRepos).length ≠ 0) :
    removeGoneRepos cats "y" st =
      { st with
        manifest :=
          { st.manifest with
            repositories := st.manifest.repositories.filter
              (fun r => decide (r.name ∉ cats.goneRepos.map Repo.name))
            excludedRepositories := st.manifest.excludedRepositories.filter
              (fun n => decide (n ∉ cats.goneExcRepos.map Repo.name)) }
        persists := st.persists ++
          [{ st.manifest with
             repositories := st.manifest.repositories.filter
               (fun r => decide (r.name ∉ cats.goneRepos.map Repo.name))
             excludedRepositories := st.manifest.excludedRepositories.filter
               (fun n => decide (n ∉ cats.goneExcRepos.map Repo.name)) }] } := by
  simp only [removeGoneRepos]
  rw [if_neg hne, if_neg (show ¬("y" ≠ "y") by simp)]
  have hrepos : st.manifest.repositories.filter
        (fun r => !(cats.goneRepos.map Repo.name).contains r.name)
      = st.manifest.repositories.filter
        (fun r => decide (r.name ∉ cats.goneRepos.map Repo.name)) :=
    List.filter_congr (fun r _ => not_contains_eq (cats.goneRepos.map Repo.name) r.name)
  have hexc : st.manifest.excludedRepositories.filter
        (fun n => !(cats.goneExcRepos.map Repo.name).contains n)
      = st.manifest.excludedRepositories.filter
        (fun n => decide (n ∉ cats.goneExcRepos.map Repo.name)) :=
    List.filter_congr (fun n _ => not_contains_eq (cats.goneExcRepos.map Repo.name) n)
  rw [hrepos, hexc]

theorem confirmAddNewRepos_noEnter (cats : Categories) (st : SessState) :
    confirmAddNewRepos cats false st = { st with addNewRepos := false } := by
  unfold confirmAddNewRepos
  split_ifs with h1 h2
  · rfl
  · rfl
  · exact absurd rfl h2

theorem confirmAddNewRepos_enter (cats : Categories) (st : SessState)
    (h : cats.newRepos.length ≠ 0) :
    confirmAddNewRepos cats true st =
      { st with addNewRepos := true, remainingRepos := cats.newRepos } := by
  unfold confirmAddNewRepos
  rw [if_neg h, if_neg (by simp)]

/-! ## Theorems about the removal stage -/

/-- C9: when something is gone (so the removal prompt is shown),
answering `y` removes from `repositories` exactly the entries carrying a
gone name and from `excludedRepositories` exactly the gone excluded
names, leaves every other manifest field unchanged, and persists the
updated manifest; any other answer leaves the whole session state
(manifest and persist trace included) unchanged. -/
theorem removal_stage_yes_removes_no_keeps (cats : Categories) (answer : String)
    (st : SessState) (hne : cats.goneRepos ++ cats.goneExcRepos ≠ []) :
    (answer = "y" →
        (removeGoneRepos cats answer st).manifest.repositories
          = st.manifest.repositories.filter
              (fun r => decide (r.name ∉ cats.goneRepos.map Repo.name))
      ∧ (removeGoneRepos cats answer st).manifest.excludedRepositories
          = st.manifest.excludedRepositories.filter
              (fun n => decide (n ∉ cats.goneExcRepos.map Repo.name))
      ∧ (removeGoneRepos cats answer st).manifest.descr = st.manifest.descr
      ∧ (removeGoneRepos cats answer st).manifest.repoCandidateSearch
          = st.manifest.repoCandidateSearch
      ∧ (removeGoneRepos cats answer st).manifest.blessedLabels
          = st.manifest.blessedLabels
      ∧ (removeGoneRepos cats answer st).manifest.defaults = st.manifest.defaults
      ∧ (removeGoneRepos cats answer st).persists
          = st.persists ++ [(removeGoneRepos cats answer st).manifest])
  ∧ (answer ≠ "y" → removeGoneRepos cats answer st = st) := by
  constructor
  · intro hy
    subst hy
    have hlen : (cats.goneRepos ++ cats.goneExcRepos).length ≠ 0 := by
      simpa [List.length_eq_zero] using hne
    rw [removeGoneRepos_yes cats st hlen]
    exact ⟨rfl, rfl, rfl, rfl, rfl, rfl, rfl⟩
  · exact removeGoneRepos_skip cats answer st

/-- Witness for the removal-stage theorem at a concrete input: repo `b`
is gone, answering `y` keeps exactly `a`, and answering `x` changes
nothing. -/
theorem removal_stage_yes_removes_no_keeps_witness :
    (removeGoneRepos ⟨[⟨"b", none⟩], [], []⟩ "y"
        (initialState exManifestAB)).manifest.repositories = [⟨"a", none⟩]
  ∧ removeGoneRepos ⟨[⟨"b", none⟩], [], []⟩ "x" (initialState exManifestAB)
      = initialState exManifestAB := by
  have h := removal_stage_yes_removes_no_keeps ⟨[⟨"b", none⟩], [], []⟩ "y"
    (initialState exManifestAB) (by decide)
  have h2 := removal_stage_yes_removes_no_keeps ⟨[⟨"b", none⟩], [], []⟩ "x"
    (initialState exManifestAB) (by decide)
  constructor
  · rw [(h.1 rfl).1]
    decide
  · exact h2.2 (by decide)

/-! ## String lemmas -/

theorem toList_append (a b : String) : (a ++ b).toList = a.toList ++ b.toList :=
  String.data_append a b

theorem mk_toList (s : String) : String.mk s.toList = s := rfl

theorem toList_ne_nil (s : String) (h : s ≠ "") : s.toList ≠ [] := by
  intro hl
  apply h
  have hmk := congrArg String.mk hl
  simpa using hmk

theorem dropWhile_eq_self_of_all (p : Char → Bool) (cs : List Char)
    (h : ∀ c ∈ cs, p c = false) : cs.dropWhile p = cs := by
  cases cs with
  | nil => rfl
  | cons c rest =>
    rw [List.dropWhile_cons, h c (List.mem_cons_self c rest)]
    simp

theorem jsTrimList_eq_self (cs : List Char) (h : ∀ c ∈ cs, jsIsWs c = false) :
    jsTrimList cs = cs := by
  unfold jsTrimList
  rw [dropWhile_eq_self_of_all _ _ h,
      dropWhile_eq_self_of_all _ _ (fun c hc => h c (List.mem_reverse.mp hc)),
      List.reverse_reverse]

theorem jsTrim_eq_self (s : String) (h : ∀ c ∈ s.toList, jsIsWs c = false) :
    jsTrim s = s := by
  unfold jsTrim
  rw [jsTrimList_eq_self _ h, mk_toList]

/-- Trimming is the identity when the first and the last character are
not whitespace. -/
theorem jsTrimList_eq_self_of_boundary (cs : List Char)
    (h1 : ∀ c, cs.head? = some c → jsIsWs c = false)
    (h2 : ∀ c, cs.reverse.head? = some c → jsIsWs c = false) :
    jsTrimList cs = cs := by
  unfold jsTrimList
  have hd : cs.dropWhile jsIsWs = cs := by
    cases cs with
    | nil => rfl
    | cons c rest =>
      rw [List.dropWhile_cons, h1 c rfl]
      simp
  rw [hd]
  have hr : cs.reverse.dropWhile jsIsWs = cs.reverse := by
    cases hrev : cs.reverse with
    | nil => rfl
    | cons c rest =>
      rw [List.dropWhile_cons, h2 c (by rw [hrev]; rfl)]
      simp
  rw [hr, List.reverse_reverse]

theorem baseUrl_wsFree : ∀ c ∈ baseUrl.toList, jsIsWs c = false := by decide

/-! ## `split(/\s+/)` lemmas -/

theorem jsSplitEach_wsFree (cs : List Char) (acc : List Char)
    (h : ∀ c ∈ cs, jsIsWs c = false) :
    jsSplitEach cs acc = [String.mk (acc.reverse ++ cs)] := by
  induction cs generalizing acc with
  | nil => simp [jsSplitEach]
  | cons c rest ih =>
    unfold jsSplitEach
    rw [h c (List.mem_cons_self c rest)]
    simp only [Bool.false_eq_true, if_false]
    rw [ih (c :: acc) (fun d hd => h d (List.mem_cons_of_mem c hd))]
    simp [List.reverse_cons, List.append_assoc]

theorem jsSplitWs_wsFree (s : String) (h : ∀ c ∈ s.toList, jsIsWs c = false) :
    jsSplitWs s = [s] := by
  unfold jsSplitWs
  rw [jsSplitEach_wsFree s.toList [] h]
  simp [jsCollapseMid, mk_toList]

theorem jsSplitEach_sep (a : List Char) (b : List Char) (acc : List Char)
    (ha : ∀ c ∈ a, jsIsWs c = false) :
    jsSplitEach (a ++ ' ' :: b) acc
      = String.mk (acc.reverse ++ a) :: jsSplitEach b [] := by
  induction a generalizing acc with
  | nil =>
    rw [List.nil_append]
    simp only [jsSplitEach]
    simp [show jsIsWs ' ' = true from rfl]
  | cons c rest ih =>
    rw [List.cons_append]
    simp only [jsSplitEach]
    rw [ha c (List.mem_cons_self c rest)]
    simp only [Bool.false_eq_true, if_false]
    rw [ih (c :: acc) (fun d hd => ha d (List.mem_cons_of_mem c hd))]
    simp [List.reverse_cons, List.append_assoc]

/-- `split(/\s+/)` of `x<space>y` with whitespace-free halves. -/
theorem jsSplitWs_two (x y : String)
    (hx : ∀ c ∈ x.toList, jsIsWs c = false)
    (hy : ∀ c ∈ y.toList, jsIsWs c = false) :
    jsSplitWs (x ++ " " ++ y) = [x, y] := by
  unfold jsSplitWs
  have hl : (x ++ " " ++ y).toList = x.toList ++ ' ' :: y.toList := by
    rw [toList_append, toList_append, List.append_assoc]
    rfl
  rw [hl, jsSplitEach_sep x.toList y.toList [] hx,
      jsSplitEach_wsFree y.toList [] hy]
  simp [jsCollapseMid, mk_toList]

/-! ## Parser line lemmas -/

theorem mem_of_head?_eq (l : List α) (c : α) (h : l.head? = some c) : c ∈ l := by
  cases l with
  | nil => simp at h
  | cons x xs =>
    simp at h
    rw [h]
    exact List.mem_cons_self c xs

theorem parse_skip_line (pl : Bool) (i : Nat) (l : String) (rest : List String)
    (h : jsTrim l = "" ∨ (jsTrim l).toList.head? = some '#') :
    parseReposFormAux pl i (l :: rest) = parseReposFormAux pl (i + 1) rest := by
  simp only [parseReposFormAux]
  rcases h with h | h
  · rw [if_pos h]
  · have hne : ¬(jsTrim l = "") := by
      intro he
      rw [he] at h
      exact absurd h (by decide)
    rw [if_neg hne, if_pos h]

theorem parse_error_line (pl : Bool) (i : Nat) (l : String) (rest : List String)
    (h1 : jsTrim l ≠ "")
    (h2 : (jsTrim l).toList.head? ≠ some '#')
    (h3 : baseUrl.toList.isPrefixOf (jsTrim l).toList = false) :
    parseReposFormAux pl i (l :: rest) = .error ⟨i + 1, jsTrim l⟩ := by
  simp only [parseReposFormAux]
  rw [if_neg h1, if_neg h2, h3]
  simp

theorem parse_cons_error (pl : Bool) (i : Nat) (l : String) (rest : List String)
    (e : FormatError) (hgood : badFormLine l = false)
    (hrest : parseReposFormAux pl (i + 1) rest = .error e) :
    parseReposFormAux pl i (l :: rest) = .error e := by
  by_cases hb : jsTrim l = ""
  · rw [parse_skip_line pl i l rest (Or.inl hb)]
    exact hrest
  · by_cases hc : (jsTrim l).toList.head? = some '#'
    · rw [parse_skip_line pl i l rest (Or.inr hc)]
      exact hrest
    · have hpre : baseUrl.toList.isPrefixOf (jsTrim l).toList = true := by
        cases hb3 : baseUrl.toList.isPrefixOf (jsTrim l).toList
        · exfalso
          simp [badFormLine, hb, hc, hb3] at hgood
          have hp := List.isPrefixOf_iff_prefix.mpr (hgood hc)
          have hb3' : baseUrl.data.isPrefixOf (jsTrim l).data = false := hb3
          rw [hb3'] at hp
          exact Bool.false_ne_true hp
        · rfl
      simp only [parseReposFormAux]
      rw [if_neg hb, if_neg hc, hpre]
      simp only [if_true]
      rw [hrest]

/-- The URL branch of the parser, for any line of the form
`baseUrl ++ S` that trimming leaves unchanged. -/
theorem parse_url_line_gen (pl : Bool) (i : Nat) (S : String) (rest : List String)
    (htrim : jsTrim (baseUrl ++ S) = baseUrl ++ S) :
    parseReposFormAux pl i ((baseUrl ++ S) :: rest)
      = match parseReposFormAux pl (i + 1) rest with
        | .ok repos => .ok ((
            if pl && !(jsSplitWs S).tail.isEmpty then
              (⟨(jsSplitWs S).headD "", some (tokensToLabels (jsSplitWs S).tail)⟩ : Repo)
            else ⟨(jsSplitWs S).headD "", none⟩) :: repos)
        | .error e => .error e := by
  have hhead : (baseUrl ++ S).toList.head? = some 'h' := by
    rw [toList_append]
    rfl
  have hne : (baseUrl ++ S) ≠ "" := by
    intro he
    rw [he] at hhead
    exact absurd hhead (by decide)
  have hne2 : (baseUrl ++ S).toList.head? ≠ some '#' := by
    rw [hhead]
    decide
  have hpre : baseUrl.toList.isPrefixOf (baseUrl ++ S).toList = true := by
    rw [toList_append]
    exact List.isPrefixOf_iff_prefix.mpr (List.prefix_append _ _)
  simp only [parseReposFormAux]
  rw [htrim, if_neg hne, if_neg hne2, hpre]
  simp only [if_true]
  rw [toList_append, List.drop_left, mk_toList]

theorem parse_url_line (pl : Bool) (i : Nat) (name : String) (rest : List String)
    (hname : ∀ c ∈ name.toList, jsIsWs c = false) :
    parseReposFormAux pl i ((baseUrl ++ name) :: rest)
      = match parseReposFormAux pl (i + 1) rest with
        | .ok repos => .ok ((⟨name, none⟩ : Repo) :: repos)
        | .error e => .error e := by
  have hall : ∀ c ∈ (baseUrl ++ name).toList, jsIsWs c = false := by
    intro c hc
    rw [toList_append] at hc
    rcases List.mem_append.mp hc with h | h
    · exact baseUrl_wsFree c h
    · exact hname c h
  rw [parse_url_line_gen pl i name rest (jsTrim_eq_self _ hall),
      jsSplitWs_wsFree name hname]
  simp only [List.tail_cons, List.isEmpty_nil, Bool.not_true, Bool.and_false,
    Bool.false_eq_true, if_false, List.headD_cons]

/-- Trimming leaves a one-token repo line unchanged. -/
theorem jsTrim_token_line (name token : String)
    (htok : ∀ c ∈ token.toList, jsIsWs c = false)
    (htokne : token ≠ "") :
    jsTrim (baseUrl ++ (name ++ " " ++ token)) = baseUrl ++ (name ++ " " ++ token) := by
  unfold jsTrim
  have hsp : " ".toList = [' '] := rfl
  have hl : (baseUrl ++ (name ++ " " ++ token)).toList
      = (baseUrl.toList ++ (name.toList ++ [' '])) ++ token.toList := by
    rw [toList_append, toList_append, toList_append, hsp]
    simp [List.append_assoc]
  rw [hl, jsTrimList_eq_self_of_boundary, ← hl, mk_toList]
  · intro c hc
    have hbne : baseUrl.toList ++ (name.toList ++ [' ']) ≠ [] := by
      intro h0
      have : (baseUrl.toList ++ (name.toList ++ [' '])).length = 0 := by rw [h0]; rfl
      simp at this
    rw [List.head?_append_of_ne_nil _ hbne] at hc
    have hbne2 : baseUrl.toList ≠ [] := by decide
    rw [List.head?_append_of_ne_nil _ hbne2] at hc
    have : c = 'h' := by
      have hb : baseUrl.toList.head? = some 'h' := rfl
      rw [hb] at hc
      exact (Option.some.injEq _ _ ▸ hc).symm
    rw [this]
    decide
  · intro c hc
    rw [List.reverse_append] at hc
    have htne : token.toList.reverse ≠ [] := by
      intro h0
      exact toList_ne_nil token htokne (by simpa using congrArg List.reverse h0)
    rw [List.head?_append_of_ne_nil _ htne] at hc
    exact htok c (List.mem_reverse.mp (mem_of_head?_eq _ _ hc))

theorem parse_url_line_token (pl : Bool) (i : Nat) (name token : String)
    (rest : List String)
    (hname : ∀ c ∈ name.toList, jsIsWs c = false)
    (htok : ∀ c ∈ token.toList, jsIsWs c = false)
    (htokne : token ≠ "") :
    parseReposFormAux pl i ((baseUrl ++ (name ++ " " ++ token)) :: rest)
      = match parseReposFormAux pl (i + 1) rest with
        | .ok repos =>
          .ok ((if pl then (⟨name, some (tokensToLabels [token])⟩ : Repo)
                else ⟨name, none⟩) :: repos)
        | .error e => .error e := by
  rw [parse_url_line_gen pl i (name ++ " " ++ token) rest
        (jsTrim_token_line name token htok htokne),
      jsSplitWs_two name token hname htok]
  simp only [List.tail_cons, List.headD_cons]
  cases pl with
  | false => simp
  | true => simp [List.isEmpty]

/-! ## Whole-form parser lemmas -/

theorem parse_skip_all (pl : Bool) (front : List String)
    (h : ∀ l ∈ front, jsTrim l = "" ∨ (jsTrim l).toList.head? = some '#') :
    ∀ (i : Nat) (rest : List String),
      parseReposFormAux pl i (front ++ rest)
        = parseReposFormAux pl (i + front.length) rest := by
  induction front with
  | nil =>
    intro i rest
    simp
  | cons l ls ih =>
    intro i rest
    rw [List.cons_append,
        parse_skip_line pl i l (ls ++ rest) (h l (List.mem_cons_self l ls)),
        ih (fun x hx => h x (List.mem_cons_of_mem l hx)) (i + 1) rest]
    have hidx : i + 1 + ls.length = i + (l :: ls).length := by
      simp [List.length_cons]
      omega
    rw [hidx]

theorem parse_url_lines (pl : Bool) (names : List String)
    (h : ∀ n ∈ names, ∀ c ∈ n.toList, jsIsWs c = false) :
    ∀ (i : Nat) (rest : List String),
      parseReposFormAux pl i (names.map (fun n => baseUrl ++ n) ++ rest)
        = match parseReposFormAux pl (i + names.length) rest with
          | .ok repos => .ok (names.map (fun n => (⟨n, none⟩ : Repo)) ++ repos)
          | .error e => .error e := by
  induction names with
  | nil =>
    intro i rest
    simp only [List.map_nil, List.nil_append, List.length_nil, Nat.add_zero]
    cases parseReposFormAux pl i rest <;> rfl
  | cons n ns ih =>
    intro i rest
    rw [List.map_cons, List.cons_append,
        parse_url_line pl i n _ (h n (List.mem_cons_self n ns)),
        ih (fun x hx => h x (List.mem_cons_of_mem n hx)) (i + 1) rest]
    have hidx : i + 1 + ns.length = i + (n :: ns).length := by
      simp [List.length_cons]
      omega
    rw [hidx]
    cases parseReposFormAux pl (i + (n :: ns).length) rest <;> simp

theorem parse_first_bad_line (pl : Bool) (pre : List String) :
    ∀ (i : Nat) (l : String) (rest : List String),
      (∀ x ∈ pre, badFormLine x = false) → badFormLine l = true →
      parseReposFormAux pl i (pre ++ l :: rest)
        = .error ⟨i + pre.length + 1, jsTrim l⟩ := by
  induction pre with
  | nil =>
    intro i l rest _ hbad
    simp [badFormLine] at hbad
    have h1 : jsTrim l ≠ "" := hbad.1.1
    have h2 : (jsTrim l).toList.head? ≠ some '#' := hbad.1.2
    have h3 : baseUrl.toList.isPrefixOf (jsTrim l).toList = false := hbad.2
    simpa using parse_error_line pl i l rest h1 h2 h3
  | cons p ps ih =>
    intro i l rest hpre hbad
    rw [List.cons_append]
    have hrest := ih (i + 1) l rest (fun x hx => hpre x (List.mem_cons_of_mem p hx)) hbad
    have hidx : i + 1 + ps.length + 1 = i + (p :: ps).length + 1 := by
      simp [List.length_cons]
      omega
    rw [hidx] at hrest
    exact parse_cons_error pl i p (ps ++ l :: rest) _
      (hpre p (List.mem_cons_self p ps)) hrest

/-! ## Theorems about the form codec -/

/-- C2 (amended): for a front matter of blank or comment lines and
repos with whitespace-free names, decoding the encoded form with every
repo line uncommented yields exactly the original name list — but every
decoded entry carries no label map (`createReposForm` serializes only
`# <base-url><name>` and drops labels), so the label maps of repos that
have them are not reproduced. -/
theorem decode_encode_uncommented_names (front : List String) (repos : List Repo)
    (hfront : ∀ l ∈ front, jsTrim l = "" ∨ (jsTrim l).toList.head? = some '#')
    (hnames : ∀ r ∈ repos, ∀ c ∈ r.name.toList, jsIsWs c = false) :
    parseReposForm (createReposFormUncommented front (repos.map Repo.name)) true
      = .ok (repos.map (fun r => ⟨r.name, none⟩))
  ∧ (repos.map (fun r => (⟨r.name, none⟩ : Repo))).map Repo.name
      = repos.map Repo.name := by
  constructor
  · unfold parseReposForm createReposFormUncommented
    rw [List.append_assoc, parse_skip_all true front hfront 0 _]
    have hn : ∀ n ∈ repos.map Repo.name, ∀ c ∈ n.toList, jsIsWs c = false := by
      intro n hn c hc
      obtain ⟨r, hr, hrn⟩ := List.mem_map.mp hn
      exact hnames r hr c (hrn ▸ hc)
    rw [parse_url_lines true (repos.map Repo.name) hn (0 + front.length) [""]]
    have hempty : parseReposFormAux true (0 + front.length + (repos.map Repo.name).length) [""]
        = .ok [] := by
      rw [parse_skip_line true _ "" [] (Or.inl rfl)]
      rfl
    rw [hempty]
    simp [List.map_map]
  · simp [List.map_map]

/-- C2 counterexample: the round trip loses labels.  The repo `a`
carrying label map `x = 1` encodes to a form whose uncommented decode
returns `a` with no labels at all. -/
theorem encode_drops_labels :
    parseReposForm (createReposFormUncommented []
        ([(⟨"a", some [("x", .num (.val 1))]⟩ : Repo)].map Repo.name)) true
      = .ok [⟨"a", none⟩]
  ∧ (⟨"a", none⟩ : Repo).labels ≠ (⟨"a", some [("x", .num (.val 1))]⟩ : Repo).labels := by
  exact ⟨by decide, by decide⟩

/-- Witness for the amended round-trip theorem at a concrete input. -/
theorem decode_encode_uncommented_names_witness :
    parseReposForm (createReposFormUncommented ["# pick"]
        ([(⟨"a", none⟩ : Repo), ⟨"b", some [("x", .bool true)]⟩].map Repo.name)) true
      = .ok [⟨"a", none⟩, ⟨"b", none⟩] :=
  (decode_encode_uncommented_names ["# pick"]
    [⟨"a", none⟩, ⟨"b", some [("x", .bool true)]⟩] (by decide) (by decide)).1

/-- C7 (amended): decoding a form whose lines up to the first bad line
(non-blank, not comment-marked, not base-URL-prefixed) are all good
fails with a parse error carrying that bad line's 1-based number and
its trimmed text; a form of blank and comment lines only decodes
successfully to no entries. -/
theorem bad_line_error_carries_first_bad_line (pl : Bool) :
    (∀ (pre : List String) (l : String) (rest : List String),
        (∀ x ∈ pre, badFormLine x = false) → badFormLine l = true →
        parseReposForm (pre ++ l :: rest) pl = .error ⟨pre.length + 1, jsTrim l⟩)
  ∧ (∀ lines : List String,
        (∀ l ∈ lines, jsTrim l = "" ∨ (jsTrim l).toList.head? = some '#') →
        parseReposForm lines pl = .ok []) := by
  constructor
  · intro pre l rest hpre hbad
    have h := parse_first_bad_line pl pre 0 l rest hpre hbad
    simpa using h
  · intro lines hl
    unfold parseReposForm
    have h := parse_skip_all pl lines hl 0 []
    rw [List.append_nil] at h
    rw [h]
    rfl

/-- C7 counterexample: with two bad lines `x` (line 1) and `y`
(line 2), decoding reports line 1; the claim, stated for every bad
line, would also require the error to carry line 2. -/
theorem error_not_reported_for_later_bad_lines :
    ¬(∀ (lines : List String) (pl : Bool) (i : Nat) (h : i < lines.length),
        badFormLine (lines.get ⟨i, h⟩) = true →
        parseReposForm lines pl = .error ⟨i + 1, jsTrim (lines.get ⟨i, h⟩)⟩) := by
  intro H
  have h0 := H ["x", "y"] false 0 (by decide) (by decide)
  have h1 := H ["x", "y"] false 1 (by decide) (by decide)
  rw [h0] at h1
  exact absurd h1 (by decide)

/-- Witness for the first-bad-line theorem at a concrete input. -/
theorem bad_line_error_witness :
    parseReposForm ["# c", "bad line"] false = .error ⟨2, "bad line"⟩
  ∧ parseReposForm ["# c", "", "  "] false = .ok [] := by
  constructor
  · have h : parseReposForm ["# c", "bad line"] false
        = .error ⟨(["# c"] : List String).length + 1, jsTrim "bad line"⟩ :=
      (bad_line_error_carries_first_bad_line false).1 ["# c"] "bad line" []
        (by decide) (by decide)
    exact h.trans (by decide)
  · exact (bad_line_error_carries_first_bad_line false).2 ["# c", "", "  "] (by decide)

/-! ## Label token coercion -/

theorem indexOfEqAux_no_eq (cs : List Char) (h : '=' ∉ cs) :
    ∀ i, indexOfEqAux cs i = none := by
  induction cs with
  | nil => intro i; rfl
  | cons c rest ih =>
    intro i
    simp only [indexOfEqAux]
    rw [if_neg (fun hc => h (by rw [← hc]; exact List.mem_cons_self c rest))]
    exact ih (fun hm => h (List.mem_cons_of_mem c hm)) (i + 1)

theorem indexOfEqAux_key_val (key val : List Char) (hkey : '=' ∉ key) :
    ∀ i, indexOfEqAux (key ++ '=' :: val) i = some (i + key.length) := by
  induction key with
  | nil =>
    intro i
    simp [indexOfEqAux]
  | cons c rest ih =>
    intro i
    rw [List.cons_append]
    simp only [indexOfEqAux]
    rw [if_neg (fun hc => hkey (by rw [← hc]; exact List.mem_cons_self c rest)),
        ih (fun hm => hkey (List.mem_cons_of_mem c hm)) (i + 1)]
    congr 1
    simp [List.length_cons]
    omega

theorem applyLabelToken_no_eq (labels : List (String × LabelVal)) (token : String)
    (h : '=' ∉ token.toList) :
    applyLabelToken labels token = jsObjSet labels token (.bool true) := by
  unfold applyLabelToken jsIndexOfEq
  rw [indexOfEqAux_no_eq token.toList h 0]

theorem applyLabelToken_key_val (labels : List (String × LabelVal)) (key val : String)
    (hkey : '=' ∉ key.toList) :
    applyLabelToken labels (key ++ "=" ++ val)
      = (if val = "true" then jsObjSet labels key (.bool true)
         else if val = "false" then jsObjSet labels key (.bool false)
         else match jsToNumber val with
           | .nan => jsObjSet labels key (.str val)
           | n => jsObjSet labels key (.num n)) := by
  unfold applyLabelToken jsIndexOfEq
  have hl : (key ++ "=" ++ val).toList = key.toList ++ '=' :: val.toList := by
    rw [toList_append, toList_append, List.append_assoc]
    rfl
  rw [hl, indexOfEqAux_key_val key.toList val.toList hkey 0, Nat.zero_add]
  dsimp only
  have htake : (key.toList ++ '=' :: val.toList).take key.toList.length = key.toList :=
    List.take_left key.toList ('=' :: val.toList)
  have hdrop : (key.toList ++ '=' :: val.toList).drop (key.toList.length + 1)
      = val.toList := by
    have : key.toList ++ '=' :: val.toList = (key.toList ++ ['=']) ++ val.toList := by
      simp [List.append_assoc]
    rw [this, show key.toList.length + 1 = (key.toList ++ ['=']).length from by simp,
        List.drop_left]
  rw [htake, hdrop, mk_toList, mk_toList]

/-- Parsing a one-token repo line produces the repo with the labels of
that one token. -/
theorem parse_single_token_line (name token : String)
    (hname : ∀ c ∈ name.toList, jsIsWs c = false)
    (htok : ∀ c ∈ token.toList, jsIsWs c = false) (htokne : token ≠ "") :
    parseReposForm [baseUrl ++ (name ++ " " ++ token)] true
      = .ok [⟨name, some (applyLabelToken [] token)⟩] := by
  unfold parseReposForm
  rw [parse_url_line_token true 0 name token [] hname htok htokne]
  rfl

/-- Parsing a repo line with a single `key=value` token. -/
theorem parse_key_val_line (name key val : String)
    (hname : ∀ c ∈ name.toList, jsIsWs c = false)
    (hkeyws : ∀ c ∈ key.toList, jsIsWs c = false)
    (hvalws : ∀ c ∈ val.toList, jsIsWs c = false) :
    parseReposForm [baseUrl ++ (name ++ " " ++ (key ++ "=" ++ val))] true
      = .ok [⟨name, some (applyLabelToken [] (key ++ "=" ++ val))⟩] := by
  have hl : (key ++ "=" ++ val).toList = key.toList ++ '=' :: val.toList := by
    rw [toList_append, toList_append, List.append_assoc]
    rfl
  have htokws : ∀ c ∈ (key ++ "=" ++ val).toList, jsIsWs c = false := by
    intro c hc
    rw [hl] at hc
    rcases List.mem_append.mp hc with h | h
    · exact hkeyws c h
    · rcases List.mem_cons.mp h with h | h
      · rw [h]; decide
      · exact hvalws c h
  have htokne : key ++ "=" ++ val ≠ "" := by
    intro he
    have hmem : '=' ∈ (key ++ "=" ++ val).toList := by
      rw [hl]
      simp
    rw [he] at hmem
    simp at hmem
  exact parse_single_token_line name (key ++ "=" ++ val) hname htokws htokne

/-- C5: on an uncommented repo line carrying one label token, a token
without `=` yields the label value `true`; a token `key=value` yields
boolean `true` for value `true`, boolean `false` for value `false`, the
number `Number(value)` when that is not `NaN`, and the value string
itself otherwise. -/
theorem label_token_coercion (name key val token : String)
    (hname : ∀ c ∈ name.toList, jsIsWs c = false) :
    ((∀ c ∈ token.toList, jsIsWs c = false) → token ≠ "" → '=' ∉ token.toList →
      parseReposForm [baseUrl ++ (name ++ " " ++ token)] true
        = .ok [⟨name, some [(token, .bool true)]⟩])
  ∧ ((∀ c ∈ key.toList, jsIsWs c = false) → (∀ c ∈ val.toList, jsIsWs c = false) →
      '=' ∉ key.toList →
      (val = "true" →
        parseReposForm [baseUrl ++ (name ++ " " ++ (key ++ "=" ++ val))] true
          = .ok [⟨name, some [(key, .bool true)]⟩])
    ∧ (val = "false" →
        parseReposForm [baseUrl ++ (name ++ " " ++ (key ++ "=" ++ val))] true
          = .ok [⟨name, some [(key, .bool false)]⟩])
    ∧ (val ≠ "true" → val ≠ "false" → jsToNumber val ≠ .nan →
        parseReposForm [baseUrl ++ (name ++ " " ++ (key ++ "=" ++ val))] true
          = .ok [⟨name, some [(key, .num (jsToNumber val))]⟩])
    ∧ (val ≠ "true" → val ≠ "false" → jsToNumber val = .nan →
        parseReposForm [baseUrl ++ (name ++ " " ++ (key ++ "=" ++ val))] true
          = .ok [⟨name, some [(key, .str val)]⟩])) := by
  constructor
  · intro htok htokne hnoeq
    rw [parse_single_token_line name token hname htok htokne,
        applyLabelToken_no_eq [] token hnoeq]
    rfl
  · intro hkeyws hvalws hkeynoeq
    refine ⟨?_, ?_, ?_, ?_⟩
    · intro hv
      rw [parse_key_val_line name key val hname hkeyws hvalws,
          applyLabelToken_key_val [] key val hkeynoeq, if_pos hv]
      rfl
    · intro hv
      rw [parse_key_val_line name key val hname hkeyws hvalws,
          applyLabelToken_key_val [] key val hkeynoeq,
          if_neg (by rw [hv]; decide), if_pos hv]
      rfl
    · intro hv1 hv2 hnan
      rw [parse_key_val_line name key val hname hkeyws hvalws,
          applyLabelToken_key_val [] key val hkeynoeq, if_neg hv1, if_neg hv2]
      cases hn : jsToNumber val with
      | nan => exact absurd hn hnan
      | posInf => rfl
      | negInf => rfl
      | val q => rfl
    · intro hv1 hv2 hnan
      rw [parse_key_val_line name key val hname hkeyws hvalws,
          applyLabelToken_key_val [] key val hkeynoeq, if_neg hv1, if_neg hv2, hnan]
      rfl

/-- Witness for the label-coercion theorem at the spec's own examples:
`a` → true, `a=true` → true, `a=false` → false, `a=3` → 3,
`a=x` → the string `x`. -/
theorem label_token_coercion_witness :
    parseReposForm [baseUrl ++ ("r" ++ " " ++ "a")] true
      = .ok [⟨"r", some [("a", .bool true)]⟩]
  ∧ parseReposForm [baseUrl ++ ("r" ++ " " ++ ("a" ++ "=" ++ "true"))] true
      = .ok [⟨"r", some [("a", .bool true)]⟩]
  ∧ parseReposForm [baseUrl ++ ("r" ++ " " ++ ("a" ++ "=" ++ "false"))] true
      = .ok [⟨"r", some [("a", .bool false)]⟩]
  ∧ parseReposForm [baseUrl ++ ("r" ++ " " ++ ("a" ++ "=" ++ "3"))] true
      = .ok [⟨"r", some [("a", .num (.val 3))]⟩]
  ∧ parseReposForm [baseUrl ++ ("r" ++ " " ++ ("a" ++ "=" ++ "x"))] true
      = .ok [⟨"r", some [("a", .str "x")]⟩] := by
  refine ⟨?_, ?_, ?_, ?_, ?_⟩
  · exact (label_token_coercion "r" "a" "" "a" (by decide)).1
      (by decide) (by decide) (by decide)
  · exact ((label_token_coercion "r" "a" "true" "" (by decide)).2
      (by decide) (by decide) (by decide)).1 rfl
  · exact ((label_token_coercion "r" "a" "false" "" (by decide)).2
      (by decide) (by decide) (by decide)).2.1 rfl
  · have h := ((label_token_coercion "r" "a" "3" "" (by decide)).2
      (by decide) (by decide) (by decide)).2.2.1 (by decide) (by decide) (by decide)
    exact h
  · have h := ((label_token_coercion "r" "a" "x" "" (by decide)).2
      (by decide) (by decide) (by decide)).2.2.2 (by decide) (by decide) (by decide)
    exact h

/-- C10: with label parsing enabled, a token `key=` (empty value
string) stores the number `0` for `key` — not a boolean and not the
empty string — because `Number('')` is `0`, not `NaN`, so the empty
value passes the numeric-parse test. -/
theorem empty_value_token_yields_zero (name key : String)
    (hname : ∀ c ∈ name.toList, jsIsWs c = false)
    (hkey : ∀ c ∈ key.toList, jsIsWs c = false)
    (hkeynoeq : '=' ∉ key.toList) :
    parseReposForm [baseUrl ++ (name ++ " " ++ (key ++ "="))] true
      = .ok [⟨name, some [(key, .num (.val 0))]⟩]
  ∧ (∀ b, LabelVal.num (.val 0) ≠ .bool b)
  ∧ LabelVal.num (.val 0) ≠ .str "" := by
  refine ⟨?_, fun b => by simp, by simp⟩
  have hkey0 : key ++ "=" = key ++ "=" ++ "" := (String.append_empty _).symm
  rw [hkey0]
  rw [parse_key_val_line name key "" hname hkey (by simp),
      applyLabelToken_key_val [] key "" hkeynoeq,
      if_neg (by decide), if_neg (by decide)]
  rfl

/-- Witness for the `key=` theorem at a concrete input. -/
theorem empty_value_token_yields_zero_witness :
    parseReposForm [baseUrl ++ ("r" ++ " " ++ ("k" ++ "="))] true
      = .ok [⟨"r", some [("k", .num (.val 0))]⟩] :=
  (empty_value_token_yields_zero "r" "k" (by decide) (by decide) (by decide)).1

/-! ## The edit/retry loop -/

theorem editLoop_trace_head (pl : Bool) (text : List String) (line : Nat)
    (s : EditStep) (rs : List EditStep) :
    (editLoop pl text line (s :: rs)).1.head? = some (text, line) := by
  cases s with
  | mk resp retry =>
    cases resp with
    | cancel => rfl
    | text t =>
      simp only [editLoop]
      cases hp : parseReposForm t pl with
      | ok repos => rfl
      | error e =>
        cases retry with
        | true => simp
        | false => rfl

/-- C6: the edit/retry loop never lets a form-text parse error escape
to its caller: every completed outcome is a successfully parsed repo
list (of the last submitted text) or a cancellation; after a parse
failure with a retry answer, the next editor invocation is re-presented
with the previous edited text and the cursor relocated to the failing
line; and the loop is unbounded — for every number of failing attempts
the loop is still awaiting the editor. -/
theorem edit_retry_loop_outcomes :
    (∀ (pl : Bool) (text : List String) (line : Nat) (script : List EditStep)
        (e : FormatError),
        (editLoop pl text line script).2 ≠ some (.parseErrorEscaped e))
  ∧ (∀ (pl : Bool) (text : List String) (line : Nat) (script : List EditStep)
        (repos : List Repo),
        (editLoop pl text line script).2 = some (.parsed repos) →
        ∃ t, parseReposForm t pl = .ok repos)
  ∧ (∀ (pl : Bool) (text : List String) (line : Nat) (t : List String)
        (e : FormatError) (s : EditStep) (rs : List EditStep),
        parseReposForm t pl = .error e →
        (editLoop pl text line (⟨.text t, true⟩ :: s :: rs)).1.head?
            = some (text, line)
        ∧ (editLoop pl text line (⟨.text t, true⟩ :: s :: rs)).1.tail.head?
            = some (t, e.line))
  ∧ (∀ (n : Nat) (pl : Bool) (text : List String) (line : Nat),
        (editLoop pl text line (List.replicate n ⟨.text ["bad"], true⟩)).2 = none) := by
  refine ⟨?_, ?_, ?_, ?_⟩
  · intro pl text line script
    induction script generalizing text line with
    | nil => intro e h; exact Option.noConfusion h
    | cons s rs ih =>
      intro e h
      revert h
      cases s with
      | mk resp retry =>
        cases resp with
        | cancel => intro h; exact EditOutcome.noConfusion (Option.some.inj h)
        | text t =>
          simp only [editLoop]
          cases hp : parseReposForm t pl with
          | ok repos => intro h; simp at h
          | error pe =>
            cases retry with
            | true =>
              intro h
              exact ih t pe.line e h
            | false => intro h; simp at h
  · intro pl text line script
    induction script generalizing text line with
    | nil => intro repos h; exact Option.noConfusion h
    | cons s rs ih =>
      intro repos h
      revert h
      cases s with
      | mk resp retry =>
        cases resp with
        | cancel => intro h; exact EditOutcome.noConfusion (Option.some.inj h)
        | text t =>
          simp only [editLoop]
          cases hp : parseReposForm t pl with
          | ok repos2 =>
            intro h
            simp at h
            exact ⟨t, by rw [hp, h]⟩
          | error pe =>
            cases retry with
            | true =>
              intro h
              exact ih t pe.line repos h
            | false => intro h; simp at h
  · intro pl text line t e s rs hp
    constructor
    · exact editLoop_trace_head pl text line _ _
    · have hstep : editLoop pl text line (⟨.text t, true⟩ :: s :: rs)
          = ((text, line) :: (editLoop pl t e.line (s :: rs)).1,
             (editLoop pl t e.line (s :: rs)).2) := by
        conv_lhs => rw [editLoop]
        dsimp only
        rw [hp]
        rfl
      rw [hstep]
      simp only [List.tail_cons]
      exact editLoop_trace_head pl t e.line s rs
  · intro n
    induction n with
    | zero => intro pl text line; rfl
    | succ k ih =>
      intro pl text line
      rw [List.replicate_succ]
      simp only [editLoop]
      have hbad : parseReposForm ["bad"] pl = .error ⟨1, "bad"⟩ := by
        unfold parseReposForm
        have h := parse_error_line pl 0 "bad" [] (by decide) (by decide) (by decide)
        rw [h]
        have : jsTrim "bad" = "bad" := by decide
        rw [this]
      rw [hbad]
      simp only [if_true]
      exact ih pl ["bad"] 1

/-- Witness for the edit-loop theorem: after the first attempt fails to
parse at line 1, the second editor invocation is re-presented with the
failed text and cursor line 1. -/
theorem edit_retry_loop_outcomes_witness :
    (editLoop false ["f"] 1 [⟨.text ["bad"], true⟩, ⟨.text ["bad2"], false⟩]).1.head?
        = some (["f"], 1)
  ∧ (editLoop false ["f"] 1 [⟨.text ["bad"], true⟩, ⟨.text ["bad2"], false⟩]).1.tail.head?
        = some (["bad"], 1) :=
  edit_retry_loop_outcomes.2.2.1 false ["f"] 1 ["bad"] ⟨1, "bad"⟩
    ⟨.text ["bad2"], false⟩ [] (by decide)

/-! ## Abort scope of the curation stages -/

theorem addNewIncludedRepos_skip (script : List EditStep) (st : SessState)
    (h : st.addNewRepos = false) : addNewIncludedRepos script st = some (st, false) := by
  unfold addNewIncludedRepos
  rw [h]
  rfl

theorem confirmAddNewExcludedRepos_skip (enter : Bool) (st : SessState)
    (h : st.addNewRepos = false) :
    confirmAddNewExcludedRepos enter st = { st with addNewExcludedRepos := false } := by
  unfold confirmAddNewExcludedRepos
  rw [h]
  rfl

theorem addNewExcludedRepos_skip (script : List EditStep) (st : SessState)
    (h : st.addNewExcludedRepos = false) :
    addNewExcludedRepos script st = some (st, false) := by
  unfold addNewExcludedRepos
  rw [h]
  rfl

theorem addNewIncludedRepos_abort (script : List EditStep) (st : SessState)
    (o : EditOutcome) (hflag : st.addNewRepos = true)
    (hedit : (editReposInEditor (inclusionFrontMatter st.manifest)
        (st.remainingRepos.map CandidateRepo.name) true script).2 = some o)
    (ho : o = .editorCancelled ∨ o = .userAborted) :
    addNewIncludedRepos script st = some (st, true) := by
  unfold addNewIncludedRepos
  rw [hflag]
  simp only [Bool.not_true, Bool.false_eq_true, if_false]
  rw [hedit]
  rcases ho with h | h <;> subst h <;> rfl

/-- C4 (amended): a decline of the removal prompt behaves exactly as if
nothing were gone (only that stage is skipped; every later stage runs on
the unchanged state); an abort at the inclusion confirmation prompt
skips the inclusion work and (its precondition now failing) the
exclusion work, completing the run with the removal stage's effects
intact; but an abort (or editor cancellation) inside the inclusion
edit/retry loop terminates the whole pipeline run: the session ends
aborted in the state the stage received — earlier persists intact — and
the exclusion stage does not execute even though its preconditions
hold. -/
theorem stage_abort_scope (cats : Categories) (script : Script) (st : SessState) :
    (script.removalAnswer ≠ "y" →
      runSession cats script st = runSession ⟨[], [], cats.newRepos⟩ script st)
  ∧ (script.addEnter = false →
      runSession cats script st
        = some ({ removeGoneRepos cats script.removalAnswer st with
                  addNewRepos := false, addNewExcludedRepos := false }, false))
  ∧ (∀ o : EditOutcome, cats.newRepos ≠ [] → script.addEnter = true →
      (editReposInEditor
          (inclusionFrontMatter (removeGoneRepos cats script.removalAnswer st).manifest)
          (cats.newRepos.map CandidateRepo.name) true script.inclEdit).2 = some o →
      (o = .editorCancelled ∨ o = .userAborted) →
      runSession cats script st
        = some ({ removeGoneRepos cats script.removalAnswer st with
                  addNewRepos := true, remainingRepos := cats.newRepos }, true)) := by
  refine ⟨?_, ?_, ?_⟩
  · intro hans
    simp only [runSession]
    rw [removeGoneRepos_skip cats script.removalAnswer st hans,
        removeGoneRepos_skip ⟨[], [], cats.newRepos⟩ script.removalAnswer st hans]
    rfl
  · intro hent
    simp only [runSession]
    rw [hent, confirmAddNewRepos_noEnter]
    rfl
  · intro o hnew hent hedit ho
    have hlen : cats.newRepos.length ≠ 0 := by
      simpa [List.length_eq_zero] using hnew
    simp only [runSession]
    rw [hent, confirmAddNewRepos_enter cats _ hlen]
    have hedit' : (editReposInEditor
        (inclusionFrontMatter
          ({ removeGoneRepos cats script.removalAnswer st with
             addNewRepos := true, remainingRepos := cats.newRepos }).manifest)
        (({ removeGoneRepos cats script.removalAnswer st with
            addNewRepos := true,
            remainingRepos := cats.newRepos }).remainingRepos.map CandidateRepo.name)
        true script.inclEdit).2 = some o := hedit
    rw [addNewIncludedRepos_abort script.inclEdit
          { removeGoneRepos cats script.removalAnswer st with
            addNewRepos := true, remainingRepos := cats.newRepos } o rfl hedit' ho]

/-- C4 counterexample: with one new candidate `c`, a script that aborts
inside the inclusion edit/retry loop ends the whole run (aborted flag
set, exclusion untouched, nothing persisted) even though the exclusion
stage's preconditions hold — the same script with the inclusion edit
accepted instead reaches the exclusion stage and excludes `c`.  The
claim says the abort should skip only the inclusion stage, so the first
run should also have excluded `c`. -/
theorem abort_in_edit_loop_kills_later_stages :
    runSession exCatsC exAbortScript (initialState exManifestAB)
      = some ({ manifest := exManifestAB, persists := [], addNewRepos := true,
                addNewExcludedRepos := false, remainingRepos := [⟨"c", false⟩] }, true)
  ∧ runSession exCatsC exNoAbortScript (initialState exManifestAB)
      = some ({ manifest := { exManifestAB with excludedRepositories := ["c", "z"] },
                persists := [{ exManifestAB with excludedRepositories := ["c", "z"] }],
                addNewRepos := true, addNewExcludedRepos := true,
                remainingRepos := [⟨"c", false⟩] }, false) := by
  constructor <;> decide

/-- Witness for the abort-scope theorem: declining removal of gone repo
`b` yields the same run as having no gone repos at all. -/
theorem stage_abort_scope_witness :
    runSession ⟨[⟨"b", none⟩], [], []⟩ ⟨"n", false, [], false, []⟩
        (initialState exManifestAB)
      = runSession ⟨[], [], []⟩ ⟨"n", false, [], false, []⟩
        (initialState exManifestAB) :=
  (stage_abort_scope ⟨[⟨"b", none⟩], [], []⟩ ⟨"n", false, [], false, []⟩
    (initialState exManifestAB)).1 (by decide)

/-! ## Manifest invariant preservation -/

theorem sortInsert_perm (le : α → α → Bool) (x : α) (l : List α) :
    (sortInsert le x l).Perm (x :: l) := by
  induction l with
  | nil => exact List.Perm.refl _
  | cons y ys ih =>
    simp only [sortInsert]
    split_ifs
    · exact List.Perm.refl _
    · exact (ih.cons y).trans (List.Perm.swap x y ys)

theorem sortBy_perm (le : α → α → Bool) (l : List α) : (sortBy le l).Perm l := by
  induction l with
  | nil => exact List.Perm.refl _
  | cons x xs ih =>
    simp only [sortBy]
    exact (sortInsert_perm le x (sortBy le xs)).trans (ih.cons x)

theorem removeGoneRepos_manifestInv (cats : Categories) (answer : String)
    (st : SessState) (hinv : manifestInv st.manifest) :
    manifestInv (removeGoneRepos cats answer st).manifest := by
  simp only [removeGoneRepos]
  split_ifs
  · exact hinv
  · exact hinv
  · obtain ⟨h1, h2, h3⟩ := hinv
    refine ⟨?_, ?_, ?_⟩
    · exact ((List.filter_sublist _).map Repo.name).nodup h1
    · exact (List.filter_sublist _).nodup h2
    · intro n hn hmem
      have hn' := (List.mem_filter.mp hn).1
      have hmem' : n ∈ st.manifest.repositories.map Repo.name :=
        ((List.filter_sublist _).map Repo.name).subset hmem
      exact h3 n hn' hmem'

theorem merged_names_inv (A repos : List Repo) (exc : List String)
    (hA : (A.map Repo.name).Nodup)
    (hAdisj : ∀ n ∈ exc, n ∉ A.map Repo.name)
    (hr : (repos.map Repo.name).Nodup)
    (hfresh : ∀ n ∈ repos.map Repo.name, n ∉ A.map Repo.name ∧ n ∉ exc) :
    ((sortBy (fun a b => jsStrLe a.name b.name) (A ++ repos)).map Repo.name).Nodup
  ∧ ∀ n ∈ exc,
      n ∉ (sortBy (fun a b => jsStrLe a.name b.name) (A ++ repos)).map Repo.name := by
  have hperm : ((sortBy (fun a b => jsStrLe a.name b.name) (A ++ repos)).map Repo.name).Perm
      ((A ++ repos).map Repo.name) :=
    (sortBy_perm _ _).map Repo.name
  constructor
  · rw [hperm.nodup_iff, List.map_append, List.nodup_append]
    exact ⟨hA, hr, fun a ha hb => (hfresh a hb).1 ha⟩
  · intro n hn hmem
    rw [hperm.mem_iff, List.map_append, List.mem_append] at hmem
    rcases hmem with h | h
    · exact hAdisj n hn h
    · exact (hfresh n h).2 hn

/-- C8 (amended): the removal stage preserves the manifest invariant
(unique repository names, unique excluded names, disjoint) for every
answer; the inclusion merge and the exclusion append preserve it for
every accepted edited form whose entry names are pairwise distinct and
fresh (not already a repository name or an excluded name) — which holds
in particular for any selection drawn from the remaining candidate
pool.  An arbitrary accepted form is not deduplicated by the merge and
can break the invariant. -/
theorem stages_preserve_manifest_inv :
    (∀ (cats : Categories) (answer : String) (st : SessState),
        manifestInv st.manifest → manifestInv (removeGoneRepos cats answer st).manifest)
  ∧ (∀ (script : List EditStep) (st st' : SessState) (b : Bool)
        (repos : List Repo),
        manifestInv st.manifest →
        (editReposInEditor (inclusionFrontMatter st.manifest)
            (st.remainingRepos.map CandidateRepo.name) true script).2
          = some (.parsed repos) →
        (repos.map Repo.name).Nodup →
        (∀ n ∈ repos.map Repo.name,
            n ∉ st.manifest.repositories.map Repo.name ∧
            n ∉ st.manifest.excludedRepositories) →
        addNewIncludedRepos script st = some (st', b) →
        manifestInv st'.manifest)
  ∧ (∀ (script : List EditStep) (st st' : SessState) (b : Bool)
        (repos : List Repo),
        manifestInv st.manifest →
        (editReposInEditor exclusionFrontMatter
            (st.remainingRepos.map CandidateRepo.name) false script).2
          = some (.parsed repos) →
        (repos.map Repo.name).Nodup →
        (∀ n ∈ repos.map Repo.name,
            n ∉ st.manifest.repositories.map Repo.name ∧
            n ∉ st.manifest.excludedRepositories) →
        addNewExcludedRepos script st = some (st', b) →
        manifestInv st'.manifest) := by
  refine ⟨removeGoneRepos_manifestInv, ?_, ?_⟩
  · intro script st st' b repos hinv hedit hnodup hfresh hstage
    cases hflag : st.addNewRepos with
    | false =>
      rw [addNewIncludedRepos_skip script st hflag] at hstage
      simp only [Option.some.injEq, Prod.mk.injEq] at hstage
      rw [← hstage.1]
      exact hinv
    | true =>
      simp only [addNewIncludedRepos, hflag, Bool.not_true, Bool.false_eq_true,
        if_false, hedit] at hstage
      by_cases hlen : repos.length = 0
      · rw [if_pos hlen] at hstage
        simp only [Option.some.injEq, Prod.mk.injEq] at hstage
        rw [← hstage.1]
        exact hinv
      · rw [if_neg hlen] at hstage
        simp only [Option.some.injEq, Prod.mk.injEq] at hstage
        rw [← hstage.1]
        obtain ⟨h1, h2, h3⟩ := hinv
        have hm := merged_names_inv st.manifest.repositories repos
          st.manifest.excludedRepositories h1 h3 hnodup hfresh
        exact ⟨hm.1, h2, fun n hn => hm.2 n hn⟩
  · intro script st st' b repos hinv hedit hnodup hfresh hstage
    cases hflag : st.addNewExcludedRepos with
    | false =>
      rw [addNewExcludedRepos_skip script st hflag] at hstage
      simp only [Option.some.injEq, Prod.mk.injEq] at hstage
      rw [← hstage.1]
      exact hinv
    | true =>
      simp only [addNewExcludedRepos, hflag, Bool.not_true, Bool.false_eq_true,
        if_false, hedit] at hstage
      by_cases hlen : repos.length = 0
      · rw [if_pos hlen] at hstage
        simp only [Option.some.injEq, Prod.mk.injEq] at hstage
        rw [← hstage.1]
        exact hinv
      · rw [if_neg hlen] at hstage
        simp only [Option.some.injEq, Prod.mk.injEq] at hstage
        rw [← hstage.1]
        obtain ⟨h1, h2, h3⟩ := hinv
        have hperm : (sortBy jsStrLe
            (st.manifest.excludedRepositories ++ repos.map Repo.name)).Perm
            (st.manifest.excludedRepositories ++ repos.map Repo.name) :=
          sortBy_perm _ _
        refine ⟨h1, ?_, ?_⟩
        · rw [hperm.nodup_iff, List.nodup_append]
          exact ⟨h2, hnodup, fun a ha hb => (hfresh a hb).2 ha⟩
        · intro n hn
          rw [hperm.mem_iff, List.mem_append] at hn
          rcases hn with h | h
          · exact h3 n h
          · exact (hfresh n h).1

/-- C8 counterexample: the inclusion merge does not deduplicate.  With
`a` already tracked, an accepted edited form naming `a` again produces
`repositories` with the name `a` twice, breaking the uniqueness
invariant. -/
theorem inclusion_merge_no_dedup :
    (addNewIncludedRepos [⟨.text [baseUrl ++ "a", ""], true⟩] exStateInclusion).map
        (fun r => r.1.manifest.repositories.map Repo.name)
      = some ["a", "a"]
  ∧ ¬ (["a", "a"] : List String).Nodup := by
  exact ⟨by decide, by decide⟩

/-- Witness for the invariant-preservation theorem: the removal stage
keeps the invariant on a concrete manifest. -/
theorem stages_preserve_manifest_inv_witness :
    manifestInv (removeGoneRepos ⟨[⟨"b", none⟩], [], []⟩ "y"
        (initialState exManifestAB)).manifest :=
  stages_preserve_manifest_inv.1 ⟨[⟨"b", none⟩], [], []⟩ "y"
    (initialState exManifestAB) (by unfold manifestInv; decide)

end JoyentRepos
